import Mathlib

/-!
Verification of `mlxtend/feature_selection/generic_selector.py`
(jonathan-taylor/mlxtend).

The development shallowly embeds the feature-selection core:

* feature-selector states are sorted tuples of column indices,
  embedded as `List ℕ` (the `np.ndarray` case, where
  `self.columns = np.arange(X.shape[1])`);
* the result table `self.results_` is a Python `dict` keyed by state;
  it is embedded as an association list `List (St × ℚ)` mapping each
  state to its `avg_score` entry (per-fold score arrays and their
  `np.nanmean` are produced by the out-of-scope evaluator
  `_calc_score`, abstracted below as a deterministic score oracle);
* scores are embedded as rationals `ℚ`;
* Python exceptions are embedded with `Except` / `Option` results.

Every definition mirrors a specific function of the source file,
named in its doc comment.
-/

namespace GenericSelector

/-- A selector state: the sorted tuple of selected column indices
(`self.columns` is `np.arange(X.shape[1])` for array input). -/
abbrev St := List ℕ

/-- The result table `self.results_`, as an association list from state
to the recorded `avg_score` of its entry. -/
abbrev Dict := List (St × ℚ)

/-- Python exception classes raised by the embedded code. -/
inductive PyErr where
  | attributeError
  | valueError
  | typeError
  | keyError
  deriving DecidableEq, Repr

/-- The `direction` argument of `StepCandidates`. -/
inductive Dir where
  | forward
  | backward
  | both
  deriving DecidableEq, Repr

/-- Python `dict` lookup `d[k]` on the association list, `none` for a
`KeyError`. -/
def lookupD (d : Dict) (k : St) : Option ℚ :=
  (d.find? (fun p => decide (p.1 = k))).map (fun p => p.2)

/-- Keys of the result table, in insertion order. -/
def dkeys (d : Dict) : List St :=
  d.map (fun p => p.1)

/-- Python `d.update(b)`: existing keys keep their position and take the
value from `b`; keys new in `b` are appended in order. -/
def dictUpdate (d b : Dict) : Dict :=
  d.map (fun p => (p.1, (lookupD b p.1).getD p.2)) ++
    b.filter (fun q => decide (lookupD d q.1 = none))

/-- The validation block of `MinMaxCandidates.__init__`
(generic_selector.py lines 551-566).  The source sets
`nfeatures = X_.shape[0]` — the number of SAMPLES (rows) of `X` — and
then checks `max_features`/`min_features` against that value; the
number of feature columns `X.shape[1]` is never consulted.  `minf` and
`maxf` are integers (`isinstance(…, int)` holds), `n_samples` is
`X_.shape[0]`.  Returns `AttributeError` exactly when the source
raises. -/
def minMaxValidate (n_samples : ℕ) (minf maxf : ℤ) : Except PyErr Unit :=
  if maxf > (n_samples : ℤ) ∨ maxf < 1 then .error .attributeError
  else if minf > (n_samples : ℤ) ∨ minf < 1 then .error .attributeError
  else if maxf < minf then .error .attributeError
  else .ok ()

/-- One step of insertion sort: place `a` before the first element it
is `≤`. -/
def sortedInsert (a : ℕ) : List ℕ → List ℕ
  | [] => [a]
  | b :: l => if a ≤ b then a :: b :: l else b :: sortedInsert a l

/-- Python `sorted(...)` on the elements of a list (insertion sort;
stable, and a permutation of the input). -/
def listSort : List ℕ → List ℕ
  | [] => []
  | a :: l => sortedInsert a (listSort l)

/-- Python-set subset test `f.issubset(c)`, for sets embedded as
lists of their elements. -/
def pySubset (f c : List ℕ) : Prop :=
  ∀ x ∈ f, x ∈ c

instance (f c : List ℕ) : Decidable (pySubset f c) :=
  List.decidableBAll _ f

/-- The forward generator of `StepCandidates.__call__`
(lines 748-752): when `len(state) < max_features`, for every column
`c ∉ state` with `fixed ⊆ state ∪ {c}`, the candidate
`tuple(sorted(state | {c}))`; otherwise `None`.  Python sets are
embedded as duplicate-free lists: `state | {c}` is `state.insert c`
(`List.insert`), and the source's `set(state)` conversion is the
`dedup` in `stepCall`. -/
def stepForward (cols : List ℕ) (maxf : ℕ) (fixed : List ℕ)
    (state : List ℕ) : Option (List St) :=
  if state.length < maxf then
    some ((cols.filter (fun c => decide (c ∉ state ∧
        pySubset fixed (state.insert c)))).map
      (fun c => listSort (state.insert c)))
  else none

/-- The backward generator of `StepCandidates.__call__`
(lines 753-757): when `len(state) > min_features`, for every column
`c ∈ state` with `fixed` still a subset after removing `c`, the
candidate `tuple(sorted(state ^ {c}))`; otherwise `None`.  On the
duplicate-free list embedding, `state ^ {c}` for `c ∈ state` is
`state.erase c`. -/
def stepBackward (cols : List ℕ) (minf : ℕ) (fixed : List ℕ)
    (state : List ℕ) : Option (List St) :=
  if minf < state.length then
    some ((cols.filter (fun c => decide (c ∈ state ∧
        pySubset fixed (state.erase c)))).map
      (fun c => listSort (state.erase c)))
  else none

/-- Iteration of `itertools.chain.from_iterable(parts)` where each part
is either a generator (`some candidates`) or Python `None`: reaching a
`None` part raises `TypeError` (`'NoneType' object is not iterable`),
losing the whole batch; embedded as `Except Unit`. -/
def iterChain : List (Option (List St)) → Except Unit (List St)
  | [] => .ok []
  | none :: _ => .error ()
  | some l :: rest => (iterChain rest).map (fun t => l ++ t)

/-- `StepCandidates.__call__` (lines 747-764).  The first line
`state = set(state)` becomes `state.dedup`.  The returned value is
either Python `None` (`Option.none`, when a single-direction generator
is `None`) or an iterator whose traversal may raise `TypeError`
(direction `both` chains the possibly-`None` forward and backward
parts). -/
def stepCall (dir : Dir) (cols : List ℕ) (minf maxf : ℕ)
    (fixed : List ℕ) (state : List ℕ) :
    Option (Except Unit (List St)) :=
  let s := state.dedup
  let fwd := stepForward cols maxf fixed s
  let bwd := stepBackward cols minf fixed s
  match dir with
  | .forward => fwd.map .ok
  | .backward => bwd.map .ok
  | .both => some (iterChain [fwd, bwd])

/-- `itertools.combinations(l, k)`: all length-`k` subsequences of `l`
in the order itertools emits them — for sorted distinct input, that is
lexicographic order. -/
def combinations : ℕ → List ℕ → List St
  | 0, _ => [[]]
  | _ + 1, [] => []
  | k + 1, x :: xs =>
      (combinations k xs).map (fun t => x :: t) ++ combinations (k + 1) xs

/-- The candidate enumeration of `MinMaxCandidates.__call__`
(lines 634-643): `chain.from_iterable` of, for `i` in
`range(min_features, max_features + 1)`, the combinations of
`self.columns` of size `i` that contain all fixed features. -/
def minMaxCall (cols : List ℕ) (minf maxf : ℕ) (fixed : List ℕ) :
    List St :=
  ((List.range (maxf + 1 - minf)).map (fun i => minf + i)).flatMap
    (fun k => (combinations k cols).filter (fun c => decide (pySubset fixed c)))

/-- `MinMaxCandidates.__call__` including the `_have_already_run`
idempotent guard (lines 634-635): the first call yields the enumeration
and flips the flag; later calls fall through and return Python `None`.
The pair is `(returned value, new flag)`. -/
def minMaxCallGuarded (cols : List ℕ) (minf maxf : ℕ) (fixed : List ℕ)
    (have_already_run : Bool) : Option (List St) × Bool :=
  if have_already_run then (none, have_already_run)
  else (some (minMaxCall cols minf maxf fixed), true)

/-- The enumeration order claimed for `MinMaxCandidates.__call__`:
increasing size first, lexicographic among candidates of equal size. -/
def enumOrd (a b : St) : Prop :=
  a.length < b.length ∨ (a.length = b.length ∧ List.Lex (· < ·) a b)

/-- The scan step of `StepCandidates.check_finished` (lines 777-783):
starting from `(None, -inf)`, replace the accumulator whenever the next
entry's `avg_score` is strictly greater.  The `(None, -inf)` start is
embedded as `Option.none` (rationals have no `-inf`, and every real
entry beats it). -/
def bestStep (acc : Option (St × ℚ)) (p : St × ℚ) : Option (St × ℚ) :=
  match acc with
  | none => some p
  | some q => if q.2 < p.2 then some p else some q

/-- The batch scan of `StepCandidates.check_finished`: the first state
of the batch attaining the maximal `avg_score`, `none` on an empty
batch. -/
def batchBest (batch : Dict) : Option (St × ℚ) :=
  batch.foldl bestStep none

/-- `StepCandidates.check_finished` (lines 766-787): scan the batch for
its best average score, then `finished = batch_best_score <=
results[best_state]['avg_score']`.  A missing `best_state` key would
raise `KeyError` (`none` here).  The empty-batch case (where the source
would carry a `None` state) is also mapped to `none`; it is unreachable
from the driver, whose `update_results_check` returns early on an empty
batch. -/
def stepCheckFinished (results : Dict) (best_state : St) (batch : Dict) :
    Option (St × ℚ × Bool) :=
  match lookupD results best_state, batchBest batch with
  | some v, some bb => some (bb.1, bb.2, decide (bb.2 ≤ v))
  | _, _ => none

/-- `MinMaxCandidates.check_finished` (lines 645-654): returns the
`best_state` ARGUMENT (the driver's best-so-far), its recorded score in
the full result table, and `True` unconditionally.  A missing
`best_state` key would raise `KeyError` (`none` here). -/
def minMaxCheckFinished (results : Dict) (best_state : St) (batch : Dict) :
    Option (St × ℚ × Bool) :=
  (lookupD results best_state).map (fun v => (best_state, v, true))

/-- `FeatureSelector.get_metric_dict` (lines 391-430).  The body copies
`self.results_`, then for each key computes `np.std` and calls
`self._calc_confidence(...)`; but `_calc_confidence` is a local
function of the method body, and neither `FeatureSelector` nor its
bases (`_BaseXComposition`, get/set-params plumbing only, and
`MetaEstimatorMixin`) define a `_calc_confidence` attribute, so the
attribute access raises `AttributeError` on the first iteration.  With
an empty result table the loop body never runs and the copied empty
dict is returned. -/
def get_metric_dict (results : Dict) : Except PyErr Dict :=
  match results with
  | [] => .ok []
  | _ => .error .attributeError

/-- The driver attributes mutated during `FeatureSelector.fit`:
`self.results_`, `self.best_state_`, `self.best_score_`. -/
structure SelState where
  results : Dict
  best_state : St
  best_score : ℚ

/-- The type of the `check_finished` callable as seen by the driver:
`(results, best_state, batch_results) ↦ (cur_state, cur_score,
finished)`, with `none` for an exception escaping the call. -/
abbrev Check := Dict → St → Dict → Option (St × ℚ × Bool)

/-- The type of the `state_generator` callable as seen by the driver:
given its mutable instance flag (`_have_already_run`; unused by
`StepCandidates`) and the reference state, produce Python `None` or an
iterator whose traversal yields candidates or raises `TypeError`, plus
the updated flag. -/
abbrev Gen := Bool → St → Option (Except Unit (List St)) × Bool

/-- Result of `FeatureSelector.update_results_check` (lines 436-480):
`empty` is the early `(None, None, True)` return on an empty batch;
`keyErr` is an exception escaping the `check_finished` call (the result
table was already updated); `next` carries the updated driver state,
the returned current state, and the returned finished flag. -/
inductive URes where
  | empty
  | keyErr (results' : Dict)
  | next (S' : SelState) (cur : St) (fin : Bool)

/-- `FeatureSelector.update_results_check` (lines 436-480): on a
non-empty batch, merge it into the result table, delegate to
`check_finished`, and promote `(cur_state, cur_score)` to best-so-far
exactly when `cur_score > best_score_`. -/
def updateResultsCheck (check : Check) (S : SelState) (batch : Dict) :
    URes :=
  if batch.isEmpty then .empty
  else
    match check (dictUpdate S.results batch) S.best_state batch with
    | none => .keyErr (dictUpdate S.results batch)
    | some (c, sc, fin) =>
      if S.best_score < sc then .next ⟨dictUpdate S.results batch, c, sc⟩ c fin
      else .next ⟨dictUpdate S.results batch, S.best_state, S.best_score⟩ c fin

/-- How one `fit` search loop ends: normal termination, a caught
`KeyboardInterrupt`, an uncaught exception propagating out of `fit`
(`TypeError` from iterating a `None` chain element, `KeyError` from
`check_finished`), or exhaustion of the step budget of the embedding
(the source loop has no such budget). -/
inductive Outcome where
  | completed (S : SelState)
  | interrupted (S : SelState)
  | raised (e : PyErr) (S : SelState)
  | fuelOut (S : SelState)

/-- The `while not self.finished` loop of `FeatureSelector.fit`
(lines 284-297): ask the generator for candidates, score them (the
out-of-scope `_calc_score` is the oracle `score`), run
`update_results_check`, and check for an external interrupt at the
point of the `_TESTING_INTERRUPT_MODE` hook (the round barrier).
`g` is the generator's instance flag, `cur` the reference state passed
to the generator, `fin` the `self.finished` flag, `r` the round
index. -/
def fitLoop (gen : Gen) (check : Check) (score : St → ℚ)
    (interrupt : ℕ → Bool) :
    ℕ → Bool → St → SelState → Bool → ℕ → Outcome
  | 0, _, _, S, _, _ => .fuelOut S
  | fuel + 1, g, cur, S, fin, r =>
    if fin then .completed S
    else
      match gen g cur with
      | (none, g') =>
        if interrupt r then .interrupted S
        else fitLoop gen check score interrupt fuel g' cur S true (r + 1)
      | (some (.error _), _) => .raised .typeError S
      | (some (.ok cs), g') =>
        match updateResultsCheck check S (cs.map (fun s => (s, score s))) with
        | .empty =>
          if interrupt r then .interrupted S
          else fitLoop gen check score interrupt fuel g' cur S true (r + 1)
        | .keyErr d => .raised .keyError ⟨d, S.best_state, S.best_score⟩
        | .next S' c fin' =>
          if interrupt r then .interrupted S'
          else fitLoop gen check score interrupt fuel g' c S' fin' (r + 1)

/-- The driver state carried by each loop outcome. -/
def outState : Outcome → SelState
  | .completed S => S
  | .interrupted S => S
  | .raised _ S => S
  | .fuelOut S => S

/-- `FeatureSelector.postprocess` (lines 482-493): rescan the whole
result table from `(None, -inf)` for the maximal `avg_score` — the
same strictly-improving scan as `StepCandidates.check_finished`. -/
def postprocessScan (results : Dict) : Option (St × ℚ) :=
  results.foldl bestStep none

/-- What `FeatureSelector.fit` leaves on the object: the result table,
the post-processed `(best_state_, best_score_)` pair, the loop's
best-so-far score at loop exit (before `postprocess` overwrote it),
the `fitted` and `interrupted_` flags, and the exception `fit`
propagated, if any. -/
structure FitResult where
  results : Dict
  best : Option (St × ℚ)
  loop_best : ℚ
  fitted : Bool
  interrupted : Bool
  raised : Option PyErr

/-- The seeding phase of `FeatureSelector.fit` (lines 260-282):
evaluate the initial state, set best-so-far to it, then call
`update_results_check` on the singleton batch — discarding the
returned triple (`self.finished` stays `False`), but keeping its
mutations of the result table and best-so-far.  An exception escaping
that call (`Except.error`, carrying the updated table) propagates out
of `fit`. -/
def seedSel (check : Check) (score : St → ℚ) (init : St) :
    Except Dict SelState :=
  let S0 : SelState := ⟨[], init, score init⟩
  match updateResultsCheck check S0 [(init, score init)] with
  | .empty => .ok S0
  | .keyErr d => .error d
  | .next S1 _ _ => .ok S1

/-- `FeatureSelector.fit` (lines 229-305): seed, loop, catch
`KeyboardInterrupt`, then set `fitted` and run `postprocess`.  On an
uncaught exception (`raised ≠ none`) the loop's table and best-so-far
survive on the object but `fitted` stays false and `postprocess` does
not run. -/
def fit (gen : Gen) (check : Check) (score : St → ℚ)
    (interrupt : ℕ → Bool) (fuel : ℕ) (g0 : Bool) (init : St) :
    FitResult :=
  match seedSel check score init with
  | .error d => ⟨d, some (init, score init), score init, false, false,
      some .keyError⟩
  | .ok S1 =>
    match fitLoop gen check score interrupt fuel g0 init S1 false 0 with
    | .completed S =>
      ⟨S.results, postprocessScan S.results, S.best_score, true, false, none⟩
    | .interrupted S =>
      ⟨S.results, postprocessScan S.results, S.best_score, true, true, none⟩
    | .raised e S =>
      ⟨S.results, some (S.best_state, S.best_score), S.best_score,
        false, false, some e⟩
    | .fuelOut S =>
      ⟨S.results, some (S.best_state, S.best_score), S.best_score,
        false, false, none⟩

/-- A `MinMaxCandidates` instance as the driver's `state_generator`:
its `__call__` ignores `state` and consults only the
`_have_already_run` flag. -/
def minMaxGen (cols : List ℕ) (minf maxf : ℕ) (fixed : List ℕ) : Gen :=
  fun have_already_run _ =>
    let out := minMaxCallGuarded cols minf maxf fixed have_already_run
    (out.1.map .ok, out.2)

/-- A `StepCandidates` instance as the driver's `state_generator`: its
`__call__` is stateless across calls. -/
def stepGen (dir : Dir) (cols : List ℕ) (minf maxf : ℕ)
    (fixed : List ℕ) : Gen :=
  fun g state => (stepCall dir cols minf maxf fixed state, g)

/-- The initial-state computation shared by `min_max_candidates`
(lines 865-869) and the forward path of `step_candidates`
(lines 958-962): `sorted(fixed_features)` when the fixed set is
non-empty, otherwise `range(min_features)`. -/
def minMaxInitialState (minf : ℕ) (fixed : List ℕ) : St :=
  if fixed.isEmpty then List.range minf else listSort fixed.dedup

/-- The `min_max_candidates` factory (lines 790-870), reduced to the
components modeled here: constructor validation, then the initial
state.  The remaining tuple components are `minMaxGen`,
`build_submodel` (out-of-scope column-encoder composition) and
`minMaxCheckFinished`. -/
def min_max_candidates (n_samples : ℕ) (minf maxf : ℤ)
    (fixed : List ℕ) : Except PyErr St :=
  match minMaxValidate n_samples minf maxf with
  | .error e => .error e
  | .ok _ => .ok (minMaxInitialState minf.toNat fixed)

/-- Resolution of `initial_features` in `step_candidates`
(lines 958-974): forward ignores the argument; `both` falls back to
the forward default; `backward` falls back to a random sample of
`max_features` distinct columns (`pick`, the abstracted
`random_state.choice` outcome, already sorted). -/
def resolveInitial (dir : Dir) (minf : ℕ) (fixed : List ℕ)
    (initial? : Option (List ℕ)) (pick : List ℕ) : List ℕ :=
  match dir with
  | .forward => minMaxInitialState minf fixed
  | .both =>
    match initial? with
    | some l => l
    | none => minMaxInitialState minf fixed
  | .backward =>
    match initial? with
    | some l => l
    | none => pick

/-- The `step_candidates` factory (lines 872-983), reduced to the
components modeled here: `StepCandidates` constructor validation, then
resolution of the initial features and the three `ValueError` checks
(length above `max_features`, length below `min_features`, fixed
features not all present), in source order.  On success, the returned
value is the `initial_state` component of the 4-tuple; the remaining
components are `stepGen dir`, `build_submodel` (out-of-scope) and
`stepCheckFinished`. -/
def step_candidates (n_samples : ℕ) (dir : Dir) (minf maxf : ℤ)
    (fixed : List ℕ) (initial? : Option (List ℕ)) (pick : List ℕ) :
    Except PyErr St :=
  match minMaxValidate n_samples minf maxf with
  | .error e => .error e
  | .ok _ =>
    if ((resolveInitial dir minf.toNat fixed initial? pick).length : ℤ) > maxf
      then .error .valueError
    else if ((resolveInitial dir minf.toNat fixed initial? pick).length : ℤ) <
        minf then .error .valueError
    else if ¬ pySubset fixed (resolveInitial dir minf.toNat fixed initial? pick)
      then .error .valueError
    else .ok (resolveInitial dir minf.toNat fixed initial? pick)

/-- Soundness of a `check_finished` callable with respect to the score
oracle: on a table and batch whose entries record the oracle's scores,
with the batch already merged, a successful call returns a state of the
table together with its oracle score.  Both strategies below satisfy
this. -/
def CheckSound (score : St → ℚ) (check : Check) : Prop :=
  ∀ results best batch c sc fin,
    (∀ p ∈ results, p.2 = score p.1) →
    (∀ p ∈ batch, p.2 = score p.1) →
    (∀ k ∈ dkeys batch, k ∈ dkeys results) →
    check results best batch = some (c, sc, fin) →
    c ∈ dkeys results ∧ sc = score c

/-- The driver invariant tying best-so-far to the result table: every
table entry records the oracle's score, and the best-so-far pair is a
table entry. -/
def SelInv (score : St → ℚ) (S : SelState) : Prop :=
  (∀ p ∈ S.results, p.2 = score p.1) ∧
    S.best_state ∈ dkeys S.results ∧ S.best_score = score S.best_state

end GenericSelector

namespace GenericSelector

/-- C1: the claim asserts that `MinMaxCandidates` construction raises
exactly when `min_features`/`max_features` fall outside
`[1, n_features]` (`n_features` = number of feature columns of `X`) or
`max_features < min_features`.  The source instead validates against
`X_.shape[0]`, the number of samples.  At `X` of shape `(2, 5)` — 2
samples, 5 feature columns — with `min_features = max_features = 3`,
the bounds `1 ≤ 3 ≤ 3 ≤ 5 = n_features` hold, so the claim requires
construction to succeed, yet the source raises `AttributeError`
because `3 > 2 = X_.shape[0]`; the validation does not even consult
the column count. -/
theorem claim_C1_code_eval :
    minMaxValidate 2 3 3 = .error .attributeError ∧
      ((1 : ℤ) ≤ 3 ∧ (3 : ℤ) ≤ 3 ∧ (3 : ℤ) ≤ 5) := by
  constructor
  · rfl
  · refine ⟨by norm_num, by norm_num, by norm_num⟩

/-- C2: the claim asserts that calling a `direction='both'`
`StepCandidates` and iterating the result never fails, also when `|S|`
equals `max_features` or `min_features`.  With columns `[0, 1, 2]`,
`min_features = 1`, `max_features = 2`, no fixed features and state
`S = (0,)` (`|S| = min_features`), the forward part yields `(0, 1)`
and `(0, 2)` but the backward part is Python `None`, and
`chain.from_iterable([forward, None])` raises `TypeError` when its
iteration reaches the `None` element: the batch is lost. -/
theorem claim_C2_code_eval :
    stepForward [0, 1, 2] 2 [] [0] = some [[0, 1], [0, 2]] ∧
      stepBackward [0, 1, 2] 1 [] [0] = none ∧
      stepCall .both [0, 1, 2] 1 2 [] [0] = some (.error ()) := by
  refine ⟨by decide, by decide, by rfl⟩

theorem bestStep_isSome (acc : Option (St × ℚ)) (p : St × ℚ) :
    (bestStep acc p).isSome := by
  cases acc with
  | none => rfl
  | some q =>
    by_cases h : q.2 < p.2 <;> simp [bestStep, h]

theorem foldl_bestStep_isSome (l : Dict) :
    ∀ acc : Option (St × ℚ), acc.isSome → (l.foldl bestStep acc).isSome := by
  induction l with
  | nil => intro acc h; simpa using h
  | cons a l ih =>
    intro acc _
    rw [List.foldl_cons]
    exact ih (bestStep acc a) (bestStep_isSome acc a)

theorem batchBest_isSome (batch : Dict) (h : batch ≠ []) :
    (batchBest batch).isSome := by
  match batch, h with
  | a :: l, _ =>
    rw [batchBest, List.foldl_cons]
    exact foldl_bestStep_isSome l (bestStep none a) (bestStep_isSome none a)

theorem foldl_bestStep_spec (l : Dict) :
    ∀ (acc : Option (St × ℚ)) (r : St × ℚ), l.foldl bestStep acc = some r →
      (r ∈ l ∨ acc = some r) ∧ (∀ p ∈ l, p.2 ≤ r.2) ∧
        (∀ q : St × ℚ, acc = some q → q.2 ≤ r.2) := by
  induction l with
  | nil =>
    intro acc r h
    simp only [List.foldl_nil] at h
    refine ⟨Or.inr h, by simp, fun q hq => ?_⟩
    rw [h] at hq
    cases hq
    exact le_refl _
  | cons a l ih =>
    intro acc r h
    rw [List.foldl_cons] at h
    obtain ⟨h1, h2, h3⟩ := ih (bestStep acc a) r h
    cases acc with
    | none =>
      simp only [bestStep] at h1 h3
      refine ⟨?_, ?_, ?_⟩
      · rcases h1 with h1 | h1
        · exact Or.inl (List.mem_cons_of_mem a h1)
        · cases h1; exact Or.inl (List.mem_cons_self _ _)
      · intro p hp
        rcases List.mem_cons.mp hp with rfl | hp
        · exact h3 p rfl
        · exact h2 p hp
      · intro q hq; cases hq
    | some q0 =>
      by_cases hc : q0.2 < a.2
      · simp only [bestStep, if_pos hc] at h1 h3
        refine ⟨?_, ?_, ?_⟩
        · rcases h1 with h1 | h1
          · exact Or.inl (List.mem_cons_of_mem a h1)
          · cases h1; exact Or.inl (List.mem_cons_self _ _)
        · intro p hp
          rcases List.mem_cons.mp hp with rfl | hp
          · exact h3 p rfl
          · exact h2 p hp
        · intro q hq
          cases hq
          exact le_trans (le_of_lt hc) (h3 a rfl)
      · simp only [bestStep, if_neg hc] at h1 h3
        refine ⟨?_, ?_, ?_⟩
        · rcases h1 with h1 | h1
          · exact Or.inl (List.mem_cons_of_mem a h1)
          · exact Or.inr h1
        · intro p hp
          rcases List.mem_cons.mp hp with rfl | hp
          · exact le_trans (not_lt.mp hc) (h3 q0 rfl)
          · exact h2 p hp
        · intro q hq
          cases hq
          exact h3 q0 rfl

theorem batchBest_spec (batch : Dict) (b : St) (sc : ℚ)
    (h : batchBest batch = some (b, sc)) :
    (b, sc) ∈ batch ∧ ∀ p ∈ batch, p.2 ≤ sc := by
  obtain ⟨h1, h2, _⟩ := foldl_bestStep_spec batch none (b, sc) h
  refine ⟨?_, h2⟩
  rcases h1 with h1 | h1
  · exact h1
  · cases h1

/-- C3 fails on the code: the claim asserts that
`MinMaxCandidates.check_finished` returns the state with maximum
`avg_score` over the full result table.  On the result table
`{(0,): 1, (1,): 2}` with driver best-so-far `(0,)`, the method returns
`((0,), 1, True)` — the passed-in `best_state` and its score — while
the table's argmax is `(1,)` with score `2 > 1`: the returned state is
not the argmax and its score is not the table maximum. -/
theorem claim_C3_counterexample :
    minMaxCheckFinished [([0], 1), ([1], 2)] [0] [([1], 2)] =
        some ([0], 1, true) ∧
      lookupD [([0], 1), ([1], 2)] [1] = some 2 ∧ (1 : ℚ) < 2 := by
  refine ⟨rfl, rfl, by norm_num⟩

/-- C3 amended: for every result table, best-so-far state present in
the table, and batch, `MinMaxCandidates.check_finished` returns the
triple `(best_state, results[best_state]['avg_score'], True)` — the
best-so-far state passed by the driver and its recorded score, with the
done flag `True` unconditionally (the table argmax is recovered later
by `postprocess`, not here). -/
theorem claim_C3_amended (results : Dict) (best_state : St)
    (batch : Dict) (v : ℚ) (hv : lookupD results best_state = some v) :
    minMaxCheckFinished results best_state batch =
      some (best_state, v, true) := by
  simp [minMaxCheckFinished, hv]

theorem claim_C3_amended_witness :
    minMaxCheckFinished [([0], 1), ([1], 2)] [0] [([1], 2)] =
      some ([0], 1, true) :=
  claim_C3_amended [([0], 1), ([1], 2)] [0] [([1], 2)] 1 rfl

/-- C4: for every result table containing the best-so-far state, and
every non-empty batch, `StepCandidates.check_finished` returns
`(b, score_b, done)` where `(b, score_b)` is an entry of the batch with
maximal `avg_score`, and `done` is `True` exactly when `score_b` is not
strictly greater than the recorded score of `best_state` in the result
table. -/
theorem claim_C4 (results : Dict) (best : St) (batch : Dict) (v : ℚ)
    (hv : lookupD results best = some v) (hb : batch ≠ []) :
    ∃ b sc fin, stepCheckFinished results best batch = some (b, sc, fin) ∧
      (b, sc) ∈ batch ∧ (∀ p ∈ batch, p.2 ≤ sc) ∧
      (fin = true ↔ ¬ v < sc) := by
  obtain ⟨⟨b, sc⟩, hbb⟩ :=
    Option.isSome_iff_exists.mp (batchBest_isSome batch hb)
  obtain ⟨hmem, hmax⟩ := batchBest_spec batch b sc hbb
  refine ⟨b, sc, decide (sc ≤ v), ?_, hmem, hmax, ?_⟩
  · simp [stepCheckFinished, hv, hbb]
  · simp [not_lt]

theorem claim_C4_witness :
    ∃ b sc fin,
      stepCheckFinished [([0], 1)] [0] [([0], 1), ([1], 2)] =
          some (b, sc, fin) ∧
        (b, sc) ∈ [([0], (1 : ℚ)), ([1], 2)] ∧
        (∀ p ∈ [([0], (1 : ℚ)), ([1], 2)], p.2 ≤ sc) ∧
        (fin = true ↔ ¬ (1 : ℚ) < sc) :=
  claim_C4 [([0], 1)] [0] [([0], 1), ([1], 2)] 1 rfl (by simp)

theorem mem_combinations (l : List ℕ) :
    ∀ (k : ℕ) (c : St), c ∈ combinations k l ↔ c.Sublist l ∧ c.length = k := by
  induction l with
  | nil =>
    intro k c
    cases k with
    | zero =>
      simp only [combinations, List.mem_singleton]
      constructor
      · rintro rfl; exact ⟨List.nil_sublist _, rfl⟩
      · rintro ⟨hs, hl⟩
        exact List.eq_nil_of_length_eq_zero hl
    | succ k =>
      simp only [combinations, List.not_mem_nil, false_iff, not_and]
      intro hs
      rw [List.sublist_nil.mp hs]
      simp
  | cons x xs ih =>
    intro k c
    cases k with
    | zero =>
      simp only [combinations, List.mem_singleton]
      constructor
      · rintro rfl; exact ⟨List.nil_sublist _, rfl⟩
      · rintro ⟨_, hl⟩
        exact List.eq_nil_of_length_eq_zero hl
    | succ k =>
      simp only [combinations, List.mem_append, List.mem_map]
      constructor
      · rintro (⟨t, ht, rfl⟩ | hc)
        · obtain ⟨hs, hl⟩ := (ih k t).mp ht
          exact ⟨List.cons_sublist_cons.mpr hs |>.trans (List.Sublist.refl _)
            |>.trans (List.Sublist.refl _), by simp [hl]⟩
        · obtain ⟨hs, hl⟩ := (ih (k + 1) c).mp hc
          exact ⟨hs.cons x, hl⟩
      · rintro ⟨hs, hl⟩
        rcases List.sublist_cons_iff.mp hs with hs | ⟨r, rfl, hr⟩
        · exact Or.inr ((ih (k + 1) c).mpr ⟨hs, hl⟩)
        · refine Or.inl ⟨r, (ih k r).mpr ⟨hr, ?_⟩, rfl⟩
          simpa using hl

theorem length_combinations (l : List ℕ) :
    ∀ k : ℕ, (combinations k l).length = l.length.choose k := by
  induction l with
  | nil =>
    intro k
    cases k <;> simp [combinations]
  | cons x xs ih =>
    intro k
    cases k with
    | zero => simp [combinations]
    | succ k =>
      simp only [combinations, List.length_append, List.length_map, ih,
        List.length_cons, Nat.choose_succ_succ]

theorem listSum_range_map (f : ℕ → ℕ) :
    ∀ L : ℕ, ((List.range L).map f).sum = ∑ i ∈ Finset.range L, f i := by
  intro L
  induction L with
  | zero => simp
  | succ L ih =>
    rw [List.range_succ, List.map_append, List.sum_append,
      Finset.sum_range_succ, ih]
    simp

theorem pairwise_lex_combinations (l : List ℕ) :
    ∀ k : ℕ, l.Pairwise (· < ·) →
      (combinations k l).Pairwise (List.Lex (· < ·)) := by
  induction l with
  | nil =>
    intro k _
    cases k <;> simp [combinations]
  | cons x xs ih =>
    intro k hp
    rw [List.pairwise_cons] at hp
    obtain ⟨hx, hxs⟩ := hp
    cases k with
    | zero => simp [combinations]
    | succ k =>
      rw [combinations, List.pairwise_append]
      refine ⟨?_, ih (k + 1) hxs, ?_⟩
      · rw [List.pairwise_map]
        exact (ih k hxs).imp (fun h => List.Lex.cons h)
      · intro a ha b hb
        obtain ⟨t, _, rfl⟩ := List.mem_map.mp ha
        obtain ⟨hsub, hlen⟩ := (mem_combinations xs (k + 1) b).mp hb
        cases b with
        | nil => simp at hlen
        | cons y b' =>
          exact List.Lex.rel (hx y (hsub.subset (List.mem_cons_self _ _)))

theorem pairwise_enumOrd_flatMap (F : ℕ → List St)
    (hlen : ∀ k, ∀ c ∈ F k, c.length = k)
    (hblock : ∀ k, (F k).Pairwise (List.Lex (· < ·))) :
    ∀ ks : List ℕ, ks.Pairwise (· < ·) →
      (ks.flatMap F).Pairwise enumOrd := by
  intro ks
  induction ks with
  | nil => simp
  | cons k ks ih =>
    intro hp
    rw [List.pairwise_cons] at hp
    rw [List.flatMap_cons, List.pairwise_append]
    refine ⟨?_, ih hp.2, ?_⟩
    · refine List.Pairwise.imp_of_mem ?_ (hblock k)
      intro a b ha hb hab
      exact Or.inr ⟨by rw [hlen k a ha, hlen k b hb], hab⟩
    · intro a ha b hb
      obtain ⟨k', hk', hbk'⟩ := List.mem_flatMap.mp hb
      exact Or.inl (by rw [hlen k a ha, hlen k' b hbk']; exact hp.1 k' hk')

theorem minMaxCall_subset (cols : List ℕ) (minf maxf : ℕ) (fixed : List ℕ) :
    ∀ c ∈ minMaxCall cols minf maxf fixed, pySubset fixed c := by
  intro c hc
  simp only [minMaxCall, List.mem_flatMap, List.mem_filter,
    decide_eq_true_eq] at hc
  obtain ⟨k, _, _, hfx⟩ := hc
  exact hfx

theorem mem_minMaxCall (n minf maxf : ℕ) (fixed : List ℕ) (c : St) :
    c ∈ minMaxCall (List.range n) minf maxf fixed ↔
      c.Sublist (List.range n) ∧ minf ≤ c.length ∧ c.length ≤ maxf ∧
        pySubset fixed c := by
  simp only [minMaxCall, List.mem_flatMap, List.mem_map, List.mem_range,
    List.mem_filter, mem_combinations, decide_eq_true_eq]
  constructor
  · rintro ⟨k, ⟨i, hi, rfl⟩, ⟨⟨hsub, hlen⟩, hfx⟩⟩
    exact ⟨hsub, by omega, by omega, hfx⟩
  · rintro ⟨hsub, h1, h2, hfx⟩
    exact ⟨c.length, ⟨c.length - minf, by omega, by omega⟩, ⟨⟨hsub, rfl⟩, hfx⟩⟩

theorem minMaxCall_length (n minf maxf : ℕ) :
    (minMaxCall (List.range n) minf maxf []).length =
      ∑ k ∈ Finset.Icc minf maxf, n.choose k := by
  rw [minMaxCall]
  have hfil : ∀ k, ((combinations k (List.range n)).filter
      (fun c => decide (pySubset [] c))) = combinations k (List.range n) := by
    intro k
    apply List.filter_eq_self.mpr
    intro c _
    simp [pySubset]
  rw [List.length_flatMap, List.map_map]
  simp only [Function.comp, hfil, length_combinations, List.length_range]
  rw [listSum_range_map, ← Nat.Ico_succ_right, Finset.sum_Ico_eq_sum_range]
  simp [Function.comp, length_combinations]

theorem minMaxCall_pairwise (n minf maxf : ℕ) (fixed : List ℕ) :
    (minMaxCall (List.range n) minf maxf fixed).Pairwise enumOrd := by
  rw [minMaxCall]
  apply pairwise_enumOrd_flatMap
  · intro k c hc
    exact ((mem_combinations _ k c).mp (List.mem_of_mem_filter hc)).2
  · intro k
    exact List.Pairwise.sublist (List.filter_sublist _)
      (pairwise_lex_combinations (List.range n) k (List.pairwise_lt_range n))
  · rw [List.pairwise_map]
    exact (List.pairwise_lt_range _).imp (fun h => by omega)

/-- C5: the first call of a `MinMaxCandidates` over `n` features yields
(i) only candidates containing every fixed feature, (ii) exactly the
size-`k` combinations of columns with `min_features ≤ k ≤ max_features`
containing all fixed features (a combination of distinct sorted columns
being a sublist of `range n`), (iii) with an empty fixed-feature set,
exactly `C(n,min) + ⋯ + C(n,max)` candidates, and (iv) in increasing
size, then lexicographic, order. -/
theorem claim_C5 (n minf maxf : ℕ) (fixed : List ℕ) :
    (∀ c ∈ minMaxCall (List.range n) minf maxf fixed, pySubset fixed c) ∧
      (∀ c : St, c ∈ minMaxCall (List.range n) minf maxf fixed ↔
        c.Sublist (List.range n) ∧ minf ≤ c.length ∧ c.length ≤ maxf ∧
          pySubset fixed c) ∧
      (minMaxCall (List.range n) minf maxf []).length =
        ∑ k ∈ Finset.Icc minf maxf, n.choose k ∧
      (minMaxCall (List.range n) minf maxf fixed).Pairwise enumOrd :=
  ⟨minMaxCall_subset _ minf maxf fixed, mem_minMaxCall n minf maxf fixed,
    minMaxCall_length n minf maxf, minMaxCall_pairwise n minf maxf fixed⟩

/-- C8: the claim asserts that `get_metric_dict` augments each
evaluated state's entry with `std_dev`, `std_err` and `ci_bound`.  On
any fitted selector with at least one evaluated state — here a result
table holding the single state `(0,)` — the method instead raises
`AttributeError`: its loop body calls `self._calc_confidence`, an
attribute no class in the hierarchy defines (the helper of that name
is a local function of the method body). -/
theorem claim_C8_code_eval :
    get_metric_dict [([0], 1)] = .error .attributeError := by
  rfl

theorem mem_sortedInsert (a x : ℕ) (l : List ℕ) :
    x ∈ sortedInsert a l ↔ x = a ∨ x ∈ l := by
  induction l with
  | nil => simp [sortedInsert]
  | cons b l ih =>
    by_cases h : a ≤ b
    · simp [sortedInsert, h]
    · simp [sortedInsert, h, ih]
      tauto

theorem mem_listSort (x : ℕ) (l : List ℕ) : x ∈ listSort l ↔ x ∈ l := by
  induction l with
  | nil => simp [listSort]
  | cons a l ih => simp [listSort, mem_sortedInsert, ih]

theorem pySubset_listSort (fixed l : List ℕ) (h : pySubset fixed l) :
    pySubset fixed (listSort l) :=
  fun x hx => (mem_listSort x l).mpr (h x hx)

theorem stepForward_subset (cols : List ℕ) (maxf : ℕ) (fixed s : List ℕ)
    (cs : List St) (h : stepForward cols maxf fixed s = some cs) :
    ∀ c ∈ cs, pySubset fixed c := by
  rw [stepForward] at h
  split at h
  · cases h
    intro c hc
    obtain ⟨c0, hc0, rfl⟩ := List.mem_map.mp hc
    have hp := (List.mem_filter.mp hc0).2
    rw [decide_eq_true_eq] at hp
    exact pySubset_listSort _ _ hp.2
  · cases h

theorem stepBackward_subset (cols : List ℕ) (minf : ℕ) (fixed s : List ℕ)
    (cs : List St) (h : stepBackward cols minf fixed s = some cs) :
    ∀ c ∈ cs, pySubset fixed c := by
  rw [stepBackward] at h
  split at h
  · cases h
    intro c hc
    obtain ⟨c0, hc0, rfl⟩ := List.mem_map.mp hc
    have hp := (List.mem_filter.mp hc0).2
    rw [decide_eq_true_eq] at hp
    exact pySubset_listSort _ _ hp.2
  · cases h

theorem stepCall_subset (dir : Dir) (cols : List ℕ) (minf maxf : ℕ)
    (fixed s : List ℕ) (cs : List St)
    (h : stepCall dir cols minf maxf fixed s = some (.ok cs)) :
    ∀ c ∈ cs, pySubset fixed c := by
  cases dir with
  | forward =>
    simp only [stepCall] at h
    cases hf : stepForward cols maxf fixed s.dedup with
    | none => rw [hf] at h; cases h
    | some l =>
      rw [hf] at h
      obtain rfl : l = cs := by simpa using h
      exact stepForward_subset cols maxf fixed s.dedup l hf
  | backward =>
    simp only [stepCall] at h
    cases hb : stepBackward cols minf fixed s.dedup with
    | none => rw [hb] at h; cases h
    | some l =>
      rw [hb] at h
      obtain rfl : l = cs := by simpa using h
      exact stepBackward_subset cols minf fixed s.dedup l hb
  | both =>
    simp only [stepCall] at h
    cases hf : stepForward cols maxf fixed s.dedup with
    | none => rw [hf] at h; simp [iterChain] at h
    | some f =>
      cases hb : stepBackward cols minf fixed s.dedup with
      | none => rw [hf, hb] at h; simp [iterChain, Except.map] at h
      | some b =>
        rw [hf, hb] at h
        simp only [iterChain, Except.map] at h
        obtain rfl : f ++ (b ++ []) = cs := by simpa using h
        intro c hc
        rw [List.mem_append] at hc
        rcases hc with hc | hc
        · exact stepForward_subset cols maxf fixed s.dedup f hf c hc
        · rw [List.mem_append] at hc
          rcases hc with hc | hc
          · exact stepBackward_subset cols minf fixed s.dedup b hb c hc
          · cases hc

theorem minMaxInitialState_subset (minf : ℕ) (fixed : List ℕ) :
    pySubset fixed (minMaxInitialState minf fixed) := by
  rw [minMaxInitialState]
  split
  · rename_i h
    rw [List.isEmpty_iff] at h
    subst h
    intro x hx
    cases hx
  · intro x hx
    exact (mem_listSort x _).mpr (List.mem_dedup.mpr hx)

theorem step_candidates_ok (n_samples : ℕ) (dir : Dir) (minf maxf : ℤ)
    (fixed : List ℕ) (initial? : Option (List ℕ)) (pick : List ℕ)
    (init : St)
    (h : step_candidates n_samples dir minf maxf fixed initial? pick =
      .ok init) :
    init = resolveInitial dir minf.toNat fixed initial? pick ∧
      pySubset fixed init := by
  rw [step_candidates] at h
  cases hv : minMaxValidate n_samples minf maxf with
  | error e => rw [hv] at h; cases h
  | ok u =>
    rw [hv] at h
    by_cases h1 : ((resolveInitial dir minf.toNat fixed initial? pick).length :
        ℤ) > maxf
    · rw [if_pos h1] at h; cases h
    · rw [if_neg h1] at h
      by_cases h2 : ((resolveInitial dir minf.toNat fixed initial?
          pick).length : ℤ) < minf
      · rw [if_pos h2] at h; cases h
      · rw [if_neg h2] at h
        by_cases h3 : pySubset fixed (resolveInitial dir minf.toNat fixed
          initial? pick)
        · rw [if_neg (not_not_intro h3)] at h
          cases h
          exact ⟨rfl, h3⟩
        · rw [if_pos h3] at h; cases h

theorem min_max_candidates_ok (n_samples : ℕ) (minf maxf : ℤ)
    (fixed : List ℕ) (init : St)
    (h : min_max_candidates n_samples minf maxf fixed = .ok init) :
    init = minMaxInitialState minf.toNat fixed ∧ pySubset fixed init := by
  rw [min_max_candidates] at h
  cases hv : minMaxValidate n_samples minf maxf with
  | error e => rw [hv] at h; cases h
  | ok u =>
    rw [hv] at h
    cases h
    exact ⟨rfl, minMaxInitialState_subset _ fixed⟩

theorem mem_dkeys (d : Dict) (k : St) : k ∈ dkeys d ↔ ∃ v, (k, v) ∈ d := by
  rw [dkeys]
  constructor
  · intro h
    obtain ⟨⟨k', v⟩, hp, rfl⟩ := List.mem_map.mp h
    exact ⟨v, hp⟩
  · rintro ⟨v, hv⟩
    exact List.mem_map_of_mem _ hv

theorem lookupD_mem (d : Dict) (k : St) (v : ℚ) (h : lookupD d k = some v) :
    (k, v) ∈ d := by
  rw [lookupD] at h
  cases hf : d.find? (fun p => decide (p.1 = k)) with
  | none => rw [hf] at h; cases h
  | some p =>
    rw [hf] at h
    cases h
    have hmem := List.mem_of_find?_eq_some hf
    have hkey : p.1 = k := by
      have hp := List.find?_some hf
      simpa using hp
    rw [← hkey]
    exact hmem

theorem dkeys_dictUpdate (d b : Dict) (k : St)
    (hk : k ∈ dkeys (dictUpdate d b)) : k ∈ dkeys d ∨ k ∈ dkeys b := by
  simp only [dkeys, dictUpdate, List.map_append, List.mem_append,
    List.map_map] at hk
  rcases hk with hk | hk
  · left
    simpa [dkeys, Function.comp] using hk
  · right
    obtain ⟨q, hq, rfl⟩ := List.mem_map.mp hk
    exact List.mem_map_of_mem _ (List.mem_of_mem_filter hq)

theorem dkeys_scoreBatch (score : St → ℚ) (cs : List St) :
    dkeys (cs.map (fun s => (s, score s))) = cs := by
  induction cs with
  | nil => rfl
  | cons a l ih => simpa [dkeys] using ih

theorem updateResultsCheck_keyErr_results (check : Check) (S : SelState)
    (batch : Dict) (d : Dict)
    (h : updateResultsCheck check S batch = .keyErr d) :
    d = dictUpdate S.results batch := by
  rw [updateResultsCheck] at h
  split at h
  · cases h
  · split at h
    · cases h; rfl
    · split at h <;> cases h

theorem updateResultsCheck_next_results (check : Check) (S : SelState)
    (batch : Dict) (S' : SelState) (c : St) (fin : Bool)
    (h : updateResultsCheck check S batch = .next S' c fin) :
    S'.results = dictUpdate S.results batch := by
  rw [updateResultsCheck] at h
  split at h
  · cases h
  · split at h
    · cases h
    · split at h <;> (cases h; rfl)

theorem fitLoop_keys (P : St → Prop) (gen : Gen) (check : Check)
    (score : St → ℚ) (interrupt : ℕ → Bool)
    (hgen : ∀ g s cs g', gen g s = (some (.ok cs), g') → ∀ c ∈ cs, P c) :
    ∀ (fuel : ℕ) (g : Bool) (cur : St) (S : SelState) (fin : Bool) (r : ℕ),
      (∀ k ∈ dkeys S.results, P k) →
      ∀ k ∈ dkeys (outState
        (fitLoop gen check score interrupt fuel g cur S fin r)).results,
        P k := by
  intro fuel
  induction fuel with
  | zero =>
    intro g cur S fin r hS
    simpa [fitLoop, outState] using hS
  | succ fuel ih =>
    intro g cur S fin r hS
    rw [fitLoop]
    by_cases hfin : fin = true
    · rw [if_pos hfin]
      simpa [outState] using hS
    · rw [if_neg hfin]
      cases hg : gen g cur with
      | mk candO g' =>
        cases candO with
        | none =>
          cases hi : interrupt r with
          | true => simpa [hi, outState] using hS
          | false =>
            simpa [hi] using ih g' cur S true (r + 1) hS
        | some e =>
          cases e with
          | error u => simpa [outState] using hS
          | ok cs =>
            have hupd : ∀ k ∈ dkeys (dictUpdate S.results
                (cs.map (fun s => (s, score s)))), P k := by
              intro k hk
              rcases dkeys_dictUpdate _ _ k hk with h | h
              · exact hS k h
              · rw [dkeys_scoreBatch] at h
                exact hgen g cur cs g' hg k h
            cases hu : updateResultsCheck check S
                (cs.map (fun s => (s, score s))) with
            | empty =>
              cases hi : interrupt r with
              | true => simpa [hu, hi, outState] using hS
              | false =>
                simpa [hu, hi] using ih g' cur S true (r + 1) hS
            | keyErr d =>
              have hd := updateResultsCheck_keyErr_results check S _ d hu
              simp only [hu, outState]
              rw [hd]
              exact hupd
            | next S' c fin' =>
              have hS' : ∀ k ∈ dkeys S'.results, P k := by
                rw [updateResultsCheck_next_results check S _ S' c fin' hu]
                exact hupd
              cases hi : interrupt r with
              | true => simpa [hu, hi, outState] using hS'
              | false =>
                simpa [hu, hi] using ih g' c S' fin' (r + 1) hS'

/-- C6: in every `fit` run configured through `min_max_candidates` or
`step_candidates` with fixed-feature set `fixed`, every state that ever
appears as a key of the result table — the initial state and every
evaluated candidate, whichever way the run ends — contains every fixed
feature. -/
theorem claim_C6
    (n_samples fuel : ℕ) (g0 : Bool) (score : St → ℚ)
    (interrupt : ℕ → Bool) (cols : List ℕ) (minf maxf : ℤ)
    (fixed : List ℕ) (dir : Dir) (initial? : Option (List ℕ))
    (pick : List ℕ) (init : St) (gen : Gen) (check : Check)
    (hcfg :
      (gen = minMaxGen cols minf.toNat maxf.toNat fixed ∧
        min_max_candidates n_samples minf maxf fixed = .ok init) ∨
      (gen = stepGen dir cols minf.toNat maxf.toNat fixed ∧
        step_candidates n_samples dir minf maxf fixed initial? pick =
          .ok init)) :
    ∀ k ∈ dkeys (fit gen check score interrupt fuel g0 init).results,
      pySubset fixed k := by
  have hinit : pySubset fixed init := by
    rcases hcfg with ⟨_, hok⟩ | ⟨_, hok⟩
    · exact (min_max_candidates_ok n_samples minf maxf fixed init hok).2
    · exact (step_candidates_ok n_samples dir minf maxf fixed initial? pick
        init hok).2
  have hgen : ∀ g s cs g', gen g s = (some (.ok cs), g') →
      ∀ c ∈ cs, pySubset fixed c := by
    rcases hcfg with ⟨rfl, _⟩ | ⟨rfl, _⟩
    · intro g s cs g' hg c hc
      rw [minMaxGen] at hg
      cases g with
      | true => simp [minMaxCallGuarded] at hg
      | false =>
        simp only [minMaxCallGuarded, Bool.false_eq_true, if_false,
          Option.map_some', Prod.mk.injEq, Option.some.injEq,
          Except.ok.injEq] at hg
        obtain ⟨rfl, _⟩ := hg
        exact minMaxCall_subset cols minf.toNat maxf.toNat fixed c hc
    · intro g s cs g' hg c hc
      rw [stepGen, Prod.mk.injEq] at hg
      exact stepCall_subset dir cols minf.toNat maxf.toNat fixed s cs hg.1 c hc
  have hseedgood : ∀ k ∈ dkeys (dictUpdate []
      [(init, score init)]), pySubset fixed k := by
    intro k hk
    rcases dkeys_dictUpdate _ _ k hk with h | h
    · cases h
    · have hk' : k = init := by simpa [dkeys] using h
      exact hk' ▸ hinit
  cases hseed : seedSel check score init with
  | error d =>
    have hd : d = dictUpdate [] [(init, score init)] := by
      rw [seedSel] at hseed
      cases hu : updateResultsCheck check ⟨[], init, score init⟩
          [(init, score init)] with
      | empty => rw [hu] at hseed; cases hseed
      | keyErr d' =>
        rw [hu] at hseed
        cases hseed
        exact updateResultsCheck_keyErr_results check _ _ _ hu
      | next S1 c fin => rw [hu] at hseed; cases hseed
    simp only [fit, hseed]
    rw [hd]
    exact hseedgood
  | ok S1 =>
    have hS1 : ∀ k ∈ dkeys S1.results, pySubset fixed k := by
      rw [seedSel] at hseed
      cases hu : updateResultsCheck check ⟨[], init, score init⟩
          [(init, score init)] with
      | empty =>
        rw [hu] at hseed
        cases hseed
        intro k hk
        cases hk
      | keyErr d' => rw [hu] at hseed; cases hseed
      | next S1' c fin =>
        rw [hu] at hseed
        cases hseed
        rw [updateResultsCheck_next_results check _ _ _ c fin hu]
        exact hseedgood
    have hkeys := fitLoop_keys (pySubset fixed) gen check score interrupt
      hgen fuel g0 init S1 false 0 hS1
    have hres : (fit gen check score interrupt fuel g0 init).results =
        (outState (fitLoop gen check score interrupt fuel g0 init S1
          false 0)).results := by
      simp only [fit, hseed]
      cases fitLoop gen check score interrupt fuel g0 init S1 false 0 <;> rfl
    intro k hk
    rw [hres] at hk
    exact hkeys k hk

theorem claim_C6_witness : pySubset [0] [0] :=
  claim_C6 1 3 false (fun _ => (1 : Rat)) (fun _ => false) [0] 1 1 [0]
    .forward none [] [0] (minMaxGen [0] (1 : ℤ).toNat (1 : ℤ).toNat [0])
    minMaxCheckFinished (Or.inl ⟨rfl, rfl⟩) [0] (by decide)

theorem dictUpdate_entries (score : St → ℚ) (d b : Dict)
    (hd : ∀ p ∈ d, p.2 = score p.1) (hb : ∀ p ∈ b, p.2 = score p.1) :
    ∀ p ∈ dictUpdate d b, p.2 = score p.1 := by
  intro p hp
  rw [dictUpdate, List.mem_append] at hp
  rcases hp with hp | hp
  · obtain ⟨q, hq, rfl⟩ := List.mem_map.mp hp
    cases hlb : lookupD b q.1 with
    | none => simpa using hd q hq
    | some w => simpa using hb (q.1, w) (lookupD_mem b q.1 w hlb)
  · exact hb p (List.mem_of_mem_filter hp)

theorem dkeys_dictUpdate_left (d b : Dict) (k : St) (h : k ∈ dkeys d) :
    k ∈ dkeys (dictUpdate d b) := by
  rw [dkeys, dictUpdate, List.map_append, List.mem_append]
  left
  rw [List.map_map]
  obtain ⟨v, hv⟩ := (mem_dkeys d k).mp h
  exact List.mem_map.mpr ⟨(k, v), hv, rfl⟩

theorem dkeys_dictUpdate_right (d b : Dict) (k : St) (h : k ∈ dkeys b) :
    k ∈ dkeys (dictUpdate d b) := by
  by_cases hd : k ∈ dkeys d
  · exact dkeys_dictUpdate_left d b k hd
  · rw [dkeys, dictUpdate, List.map_append, List.mem_append]
    right
    obtain ⟨v, hv⟩ := (mem_dkeys b k).mp h
    have hnone : lookupD d k = none := by
      cases hl : lookupD d k with
      | none => rfl
      | some w =>
        exact absurd ((mem_dkeys d k).mpr ⟨w, lookupD_mem d k w hl⟩) hd
    refine List.mem_map.mpr ⟨(k, v), List.mem_filter.mpr ⟨hv, ?_⟩, rfl⟩
    simp [hnone]

theorem minMaxCheck_sound (score : St → ℚ) :
    CheckSound score minMaxCheckFinished := by
  intro results best batch c sc fin hres _ _ h
  rw [minMaxCheckFinished] at h
  cases hv : lookupD results best with
  | none => rw [hv] at h; cases h
  | some v =>
    rw [hv] at h
    have hmem := lookupD_mem results best v hv
    simp only [Option.map_some', Option.some.injEq, Prod.mk.injEq] at h
    obtain ⟨h1, h2, _⟩ := h
    subst h1
    subst h2
    exact ⟨(mem_dkeys _ _).mpr ⟨v, hmem⟩, hres (best, v) hmem⟩

theorem stepCheck_sound (score : St → ℚ) :
    CheckSound score stepCheckFinished := by
  intro results best batch c sc fin hres hbatch hkeys h
  rw [stepCheckFinished] at h
  cases hv : lookupD results best with
  | none => rw [hv] at h; cases h
  | some v =>
    rw [hv] at h
    cases hbb : batchBest batch with
    | none => rw [hbb] at h; cases h
    | some bb =>
      rw [hbb] at h
      simp only [Option.some.injEq, Prod.mk.injEq] at h
      obtain ⟨h1, h2, _⟩ := h
      subst h1
      subst h2
      obtain ⟨hmem, _⟩ := batchBest_spec batch bb.1 bb.2 hbb
      have hkc : bb.1 ∈ dkeys batch := (mem_dkeys _ _).mpr ⟨bb.2, hmem⟩
      exact ⟨hkeys bb.1 hkc, hbatch (bb.1, bb.2) hmem⟩

theorem updateResultsCheck_next_inv (score : St → ℚ) (check : Check)
    (hsound : CheckSound score check) (S : SelState) (batch : Dict)
    (hres : ∀ p ∈ S.results, p.2 = score p.1)
    (hbatch : ∀ p ∈ batch, p.2 = score p.1)
    (hbest : S.best_state ∈ dkeys S.results ∨ S.best_state ∈ dkeys batch)
    (hbsc : S.best_score = score S.best_state) :
    ∀ S' c fin, updateResultsCheck check S batch = .next S' c fin →
      SelInv score S' := by
  intro S' c fin h
  rw [updateResultsCheck] at h
  split at h
  · cases h
  · have hent' : ∀ p ∈ dictUpdate S.results batch, p.2 = score p.1 :=
      dictUpdate_entries score _ _ hres hbatch
    have hkeys' : ∀ k ∈ dkeys batch, k ∈ dkeys (dictUpdate S.results batch) :=
      fun k hk => dkeys_dictUpdate_right _ _ k hk
    cases hc : check (dictUpdate S.results batch) S.best_state batch with
    | none => rw [hc] at h; cases h
    | some t =>
      obtain ⟨c', sc, fin'⟩ := t
      rw [hc] at h
      dsimp only at h
      obtain ⟨hck, hcs⟩ := hsound (dictUpdate S.results batch) S.best_state
        batch c' sc fin' hent' hbatch hkeys' hc
      by_cases hlt : S.best_score < sc
      · rw [if_pos hlt] at h
        cases h
        exact ⟨hent', hck, hcs⟩
      · rw [if_neg hlt] at h
        cases h
        refine ⟨hent', ?_, hbsc⟩
        rcases hbest with hb | hb
        · exact dkeys_dictUpdate_left _ _ _ hb
        · exact dkeys_dictUpdate_right _ _ _ hb

theorem seedSel_inv (score : St → ℚ) (check : Check)
    (hsound : CheckSound score check) (init : St) (S1 : SelState)
    (h : seedSel check score init = .ok S1) : SelInv score S1 := by
  rw [seedSel] at h
  cases hu : updateResultsCheck check ⟨[], init, score init⟩
      [(init, score init)] with
  | empty =>
    exfalso
    rw [updateResultsCheck, if_neg (by simp)] at hu
    dsimp only at hu
    cases hc : check (dictUpdate [] [(init, score init)]) init
        [(init, score init)] with
    | none => rw [hc] at hu; cases hu
    | some t =>
      obtain ⟨c, sc, fin⟩ := t
      rw [hc] at hu
      dsimp only at hu
      by_cases hlt : score init < sc
      · rw [if_pos hlt] at hu; cases hu
      · rw [if_neg hlt] at hu; cases hu
  | keyErr d => rw [hu] at h; cases h
  | next S1' c fin =>
    rw [hu] at h
    cases h
    refine updateResultsCheck_next_inv score check hsound
      ⟨[], init, score init⟩ [(init, score init)] (by simp) ?_ ?_ rfl _ c
      fin hu
    · intro p hp
      have hp' : p = (init, score init) := by simpa using hp
      rw [hp']
    · right
      simp [dkeys]

theorem fitLoop_inv (score : St → ℚ) (gen : Gen) (check : Check)
    (interrupt : ℕ → Bool) (hsound : CheckSound score check) :
    ∀ (fuel : ℕ) (g : Bool) (cur : St) (S : SelState) (fin : Bool) (r : ℕ),
      SelInv score S →
      ∀ S', (fitLoop gen check score interrupt fuel g cur S fin r =
          .completed S' ∨
        fitLoop gen check score interrupt fuel g cur S fin r =
          .interrupted S') → SelInv score S' := by
  intro fuel
  induction fuel with
  | zero =>
    intro g cur S fin r hS S' h
    rcases h with h | h <;> (rw [fitLoop] at h; cases h)
  | succ fuel ih =>
    intro g cur S fin r hS S' h
    rw [fitLoop] at h
    by_cases hfin : fin = true
    · rw [if_pos hfin] at h
      rcases h with h | h <;> cases h
      exact hS
    · rw [if_neg hfin] at h
      cases hg : gen g cur with
      | mk candO g' =>
        rw [hg] at h
        cases candO with
        | none =>
          dsimp only at h
          cases hi : interrupt r with
          | true =>
            rw [hi, if_pos rfl] at h
            rcases h with h | h <;> cases h
            exact hS
          | false =>
            rw [hi, if_neg (by simp)] at h
            exact ih g' cur S true (r + 1) hS S' h
        | some e =>
          cases e with
          | error u =>
            dsimp only at h
            rcases h with h | h <;> cases h
          | ok cs =>
            dsimp only at h
            cases hu : updateResultsCheck check S
                (cs.map (fun s => (s, score s))) with
            | empty =>
              rw [hu] at h
              dsimp only at h
              cases hi : interrupt r with
              | true =>
                rw [hi, if_pos rfl] at h
                rcases h with h | h <;> cases h
                exact hS
              | false =>
                rw [hi, if_neg (by simp)] at h
                exact ih g' cur S true (r + 1) hS S' h
            | keyErr d =>
              rw [hu] at h
              dsimp only at h
              rcases h with h | h <;> cases h
            | next S'' c fin' =>
              rw [hu] at h
              dsimp only at h
              have hS'' : SelInv score S'' := by
                refine updateResultsCheck_next_inv score check hsound S _
                  hS.1 ?_ (Or.inl hS.2.1) hS.2.2 S'' c fin' hu
                intro p hp
                obtain ⟨s, _, rfl⟩ := List.mem_map.mp hp
                rfl
              cases hi : interrupt r with
              | true =>
                rw [hi, if_pos rfl] at h
                rcases h with h | h <;> cases h
                exact hS''
              | false =>
                rw [hi, if_neg (by simp)] at h
                exact ih g' c S'' fin' (r + 1) hS'' S' h

theorem postprocessScan_ge (d : Dict) (p : St × ℚ) (hp : p ∈ d) :
    ∃ b sc, postprocessScan d = some (b, sc) ∧ p.2 ≤ sc := by
  have hne : d ≠ [] := by
    intro h
    rw [h] at hp
    cases hp
  obtain ⟨⟨b, sc⟩, hbb⟩ :=
    Option.isSome_iff_exists.mp (batchBest_isSome d hne)
  obtain ⟨_, h2, _⟩ := foldl_bestStep_spec d none (b, sc) hbb
  exact ⟨b, sc, hbb, h2 p hp⟩

/-- C7: in every `fit` run driven by one of the library's two
`check_finished` strategies, when the run reaches post-processing
(`fitted` set), the best pair recomputed by `postprocess` from the full
result table has a score at least the loop's last best-so-far score:
post-processing never regresses the best score. -/
theorem claim_C7 (gen : Gen) (check : Check) (score : St → ℚ)
    (interrupt : ℕ → Bool) (fuel : ℕ) (g0 : Bool) (init : St)
    (hck : check = minMaxCheckFinished ∨ check = stepCheckFinished)
    (hfit : (fit gen check score interrupt fuel g0 init).fitted = true) :
    ∃ b sc, (fit gen check score interrupt fuel g0 init).best =
        some (b, sc) ∧
      (fit gen check score interrupt fuel g0 init).loop_best ≤ sc := by
  have hsound : CheckSound score check := by
    rcases hck with rfl | rfl
    · exact minMaxCheck_sound score
    · exact stepCheck_sound score
  cases hseed : seedSel check score init with
  | error d => simp [fit, hseed] at hfit
  | ok S1 =>
    have hS1 := seedSel_inv score check hsound init S1 hseed
    have main : ∀ S : SelState, SelInv score S →
        ∃ b sc, postprocessScan S.results = some (b, sc) ∧
          S.best_score ≤ sc := by
      intro S hS
      obtain ⟨hent, hbk, hbs⟩ := hS
      obtain ⟨v, hv⟩ := (mem_dkeys _ _).mp hbk
      have hvs : v = score S.best_state := hent (S.best_state, v) hv
      obtain ⟨b, sc, hpp, hle⟩ := postprocessScan_ge S.results
        (S.best_state, v) hv
      refine ⟨b, sc, hpp, ?_⟩
      rw [hbs, ← hvs]
      exact hle
    cases ho : fitLoop gen check score interrupt fuel g0 init S1 false 0 with
    | completed S =>
      have hS := fitLoop_inv score gen check interrupt hsound fuel g0 init
        S1 false 0 hS1 S (Or.inl ho)
      simpa [fit, hseed, ho] using main S hS
    | interrupted S =>
      have hS := fitLoop_inv score gen check interrupt hsound fuel g0 init
        S1 false 0 hS1 S (Or.inr ho)
      simpa [fit, hseed, ho] using main S hS
    | raised e S => simp [fit, hseed, ho] at hfit
    | fuelOut S => simp [fit, hseed, ho] at hfit

theorem claim_C7_witness :
    ∃ b sc,
      (fit (minMaxGen [0] 1 1 []) minMaxCheckFinished (fun _ => (1 : ℚ))
          (fun _ => false) 3 false [0]).best = some (b, sc) ∧
        (fit (minMaxGen [0] 1 1 []) minMaxCheckFinished (fun _ => (1 : ℚ))
          (fun _ => false) 3 false [0]).loop_best ≤ sc :=
  claim_C7 (minMaxGen [0] 1 1 []) minMaxCheckFinished (fun _ => (1 : ℚ))
    (fun _ => false) 3 false [0] (Or.inl rfl) (by rfl)

/-- C9: whenever an external interrupt is raised during the search loop
(the loop ends in the `interrupted` outcome, the source's caught
`KeyboardInterrupt`), `fit` does not re-raise it: it returns normally
(`raised = none`) with the `interrupted_` flag set, the result table
and loop best-so-far as of the last completed round, post-processing
applied to that table, and the selector marked fitted. -/
theorem claim_C9 (gen : Gen) (check : Check) (score : St → ℚ)
    (interrupt : ℕ → Bool) (fuel : ℕ) (g0 : Bool) (init : St)
    (S1 S : SelState)
    (hseed : seedSel check score init = .ok S1)
    (hloop : fitLoop gen check score interrupt fuel g0 init S1 false 0 =
      .interrupted S) :
    fit gen check score interrupt fuel g0 init =
      ⟨S.results, postprocessScan S.results, S.best_score, true, true,
        none⟩ := by
  simp [fit, hseed, hloop]

theorem claim_C9_witness :
    fit (minMaxGen [0] 1 1 []) minMaxCheckFinished (fun _ => (1 : ℚ))
        (fun _ => true) 3 false [0] =
      ⟨[([0], 1)], postprocessScan [([0], 1)], 1, true, true, none⟩ :=
  claim_C9 (minMaxGen [0] 1 1 []) minMaxCheckFinished (fun _ => (1 : ℚ))
    (fun _ => true) 3 false [0] ⟨[([0], 1)], [0], 1⟩ ⟨[([0], 1)], [0], 1⟩
    (by rfl) (by rfl)

/-- C10: given that the `StepCandidates` constructor accepted the
bounds, `step_candidates` raises `ValueError` whenever the resolved
initial feature set is longer than `max_features`, shorter than
`min_features`, or missing a fixed feature — before returning any
selector state — and otherwise returns the 4-tuple whose
`initial_state` is the resolved set, which contains every fixed
feature. -/
theorem claim_C10 (n_samples : ℕ) (dir : Dir) (minf maxf : ℤ)
    (fixed : List ℕ) (initial? : Option (List ℕ)) (pick : List ℕ)
    (hok : minMaxValidate n_samples minf maxf = .ok ()) :
    ((((resolveInitial dir minf.toNat fixed initial? pick).length : ℤ) >
          maxf ∨
      ((resolveInitial dir minf.toNat fixed initial? pick).length : ℤ) <
          minf ∨
      ¬ pySubset fixed (resolveInitial dir minf.toNat fixed initial? pick)) →
      step_candidates n_samples dir minf maxf fixed initial? pick =
        .error .valueError) ∧
    (((resolveInitial dir minf.toNat fixed initial? pick).length : ℤ) ≤
        maxf →
      minf ≤ ((resolveInitial dir minf.toNat fixed initial? pick).length :
        ℤ) →
      pySubset fixed (resolveInitial dir minf.toNat fixed initial? pick) →
      step_candidates n_samples dir minf maxf fixed initial? pick =
          .ok (resolveInitial dir minf.toNat fixed initial? pick) ∧
        pySubset fixed (resolveInitial dir minf.toNat fixed initial?
          pick)) := by
  constructor
  · intro h
    rw [step_candidates, hok]
    by_cases h1 : ((resolveInitial dir minf.toNat fixed initial?
        pick).length : ℤ) > maxf
    · rw [if_pos h1]
    · rw [if_neg h1]
      by_cases h2 : ((resolveInitial dir minf.toNat fixed initial?
          pick).length : ℤ) < minf
      · rw [if_pos h2]
      · rw [if_neg h2]
        rw [if_pos]
        rcases h with h | h | h
        · exact absurd h h1
        · exact absurd h h2
        · exact h
  · intro hle hge hsub
    rw [step_candidates, hok]
    rw [if_neg (by omega), if_neg (by omega), if_neg (not_not_intro hsub)]
    exact ⟨rfl, hsub⟩

theorem claim_C10_witness :
    step_candidates 2 .forward 1 2 [] none [] =
        .ok (resolveInitial .forward (1 : ℤ).toNat [] none []) ∧
      pySubset [] (resolveInitial .forward (1 : ℤ).toNat [] none []) :=
  (claim_C10 2 .forward 1 2 [] none [] rfl).2 (by decide) (by decide)
    (by decide)

end GenericSelector
